import Mathlib

/-!
# dnw: framing and chunked transfer

A shallow embedding of `read_file` and of the transfer loop of `main` in
`src/dnw.c`, and the properties of the wire image and of the chunked
transfer established on it.

Conventions of the embedding:

* a byte (`unsigned char`) is a `Nat` below 256; a buffer is a `List Nat`;
* `unsigned int` and `u_int32_t` values are `Nat`s reduced `% 2^32`,
  `u_int16_t` values are `Nat`s reduced `% 2^16`, `int` values are `Int`s;
* stores through `u_int32_t *` and `u_int16_t *` are little-endian (the byte
  order of the hosts the program is built for);
* the counter `int i` of the checksum loop is a `Nat`: it stays within `int`
  for every file the 32-bit length field of the header can describe;
* the system calls and the USB bulk writes are answered by an explicit
  environment; both builds of the transfer loop (`__LINUX__`, `__APPLE__`)
  are embedded.
-/

namespace Dnw

/-! ## Machine arithmetic -/

/-- Conversion of an `int` to `unsigned int`. -/
def toU32 (x : Int) : Nat := (x % 4294967296).toNat

/-- Subtraction of two `unsigned int` values. -/
def sub32 (a b : Nat) : Nat := (a + 4294967296 - b % 4294967296) % 4294967296

/-- Multiplication of two `unsigned int` values. -/
def mul32 (a b : Nat) : Nat := (a * b) % 4294967296

/-! ## Memory -/

/-- Store of one byte at `buffer[i]`. -/
def store8 (buffer : List Nat) (i : Nat) (v : Nat) : List Nat :=
  buffer.set i (v % 256)

/-- The store `*((u_int16_t *) (buffer + off)) = v`. -/
def store16 (buffer : List Nat) (off : Nat) (v : Nat) : List Nat :=
  store8 (store8 buffer off v) (off + 1) (v / 256)

/-- The store `*((u_int32_t *) (buffer + off)) = v`. -/
def store32 (buffer : List Nat) (off : Nat) (v : Nat) : List Nat :=
  store8 (store8 (store8 (store8 buffer off v) (off + 1) (v / 256))
    (off + 2) (v / 65536)) (off + 3) (v / 16777216)

/-- The load of a little-endian 16-bit value at `buffer + off`. -/
def load16 (buffer : List Nat) (off : Nat) : Nat :=
  buffer.getD off 0 + 256 * buffer.getD (off + 1) 0

/-- The load of a little-endian 32-bit value at `buffer + off`. -/
def load32 (buffer : List Nat) (off : Nat) : Nat :=
  buffer.getD off 0 + 256 * buffer.getD (off + 1) 0
    + 65536 * buffer.getD (off + 2) 0 + 16777216 * buffer.getD (off + 3) 0

/-- The bytes `data` placed in `buffer` from offset `off` on, one by one: what
`read(fd, buffer + off, n)` does with the `n` bytes it delivers. -/
def copy_in (buffer : List Nat) (off : Nat) : List Nat → List Nat
  | [] => buffer
  | b :: bs => copy_in (buffer.set off b) (off + 1) bs

/-! ## `read_file` -/

/-- The answers of the environment to the calls of `read_file`. -/
structure FileEnv where
  /-- the return value of `open`: a descriptor, or -1 -/
  open_ret : Int
  /-- the return value of `fstat`: 0, or -1 -/
  fstat_ret : Int
  /-- the bytes of the file; `fs.st_size` is their number -/
  content : List Nat
  /-- whether `malloc` returns a block -/
  malloc_ok : Bool
  /-- the bytes found in the fresh block, position by position -/
  junk : Nat → Nat
  /-- the return value of `read`: the number of bytes delivered, or -1 -/
  read_ret : Int

/-- The file size `fs.st_size`. -/
def FileEnv.st_size (env : FileEnv) : Nat := env.content.length

/-- The calls of `read_file` that acquire or release a resource: a successful
`open`, a successful `malloc` of `size` bytes, `close` and `free`. -/
inductive Event where
  | opened
  | malloc (size : Nat)
  | close
  | free
  deriving DecidableEq, Repr

/-- What `read_file` leaves behind: the returned pointer (`none` is `NULL`,
`some b` a block with contents `b`), the caller's `*length` and the
resource calls made. -/
structure ReadOut where
  ret : Option (List Nat)
  length : Nat
  trace : List Event
  deriving DecidableEq, Repr

/-- The loop `for (i = 8; i < fs.st_size + 8; i++) checksum += buffer[i];`
with `n` iterations left to run; `checksum` is a `u_int16_t`. -/
def checksum_loop (buffer : List Nat) : Nat → Nat → Nat → Nat
  | 0, _, checksum => checksum
  | n + 1, i, checksum =>
    checksum_loop buffer n (i + 1) ((checksum + buffer.getD i 0) % 65536)

/-- The function `read_file`; `address` is the global download address and
`length0` the value of `*length` before the call. -/
def read_file (env : FileEnv) (address : Nat) (length0 : Nat) : ReadOut :=
  -- Open the file to transfer
  if env.open_ret = -1 then
    { ret := none, length := length0, trace := [] }
  -- Get the file size
  else if env.fstat_ret = -1 then
    { ret := none, length := length0, trace := [.opened, .close] }
  -- Allocate buffer
  else if !env.malloc_ok then
    { ret := none, length := length0, trace := [.opened, .close] }
  -- Read the whole file into memory
  else if env.read_ret ≠ (env.st_size : Int) then
    { ret := none, length := length0,
      trace := [.opened, .malloc (env.st_size + 10), .close, .free] }
  else
    let buffer := (List.range (env.st_size + 10)).map env.junk
    let buffer := copy_in buffer 8 env.content
    -- Compute checksum
    let checksum := checksum_loop buffer env.st_size 8 0
    -- Transfer header: download address & size
    let buffer := store32 buffer 0 address
    let buffer := store32 buffer 4 ((env.st_size + 10) % 4294967296)
    -- Transfer footer: checksum
    let buffer := store16 buffer (env.st_size + 8) checksum
    { ret := some buffer, length := (env.st_size + 10) % 4294967296,
      trace := [.opened, .malloc (env.st_size + 10)] }

/-- An environment in which every call of `read_file` succeeds on a file with
the given bytes. -/
def fileOf (content : List Nat) (junk : Nat → Nat) : FileEnv :=
  { open_ret := 3, fstat_ret := 0, content := content, malloc_ok := true,
    junk := junk, read_ret := content.length }

/-- An environment in which `read` delivers one byte of a three-byte file. -/
def shortRead : FileEnv :=
  { open_ret := 3, fstat_ret := 0, content := [1, 2, 3], malloc_ok := true,
    junk := (fun _ => 0), read_ret := 1 }

/-- Every call of `read_file` succeeds: the file opens, `fstat` and `malloc`
succeed and `read` delivers the whole file. -/
def FileEnv.readable (env : FileEnv) : Prop :=
  env.open_ret ≠ -1 ∧ env.fstat_ret ≠ -1 ∧ env.malloc_ok = true
    ∧ env.read_ret = (env.st_size : Int)

instance (env : FileEnv) : Decidable env.readable := by
  unfold FileEnv.readable; infer_instance

/-! ## The transfer loop of `main` -/

/-- The two builds of the program: libusb-0.1 (`__LINUX__`) and libusb-1.0
(`__APPLE__`). -/
inductive Platform where
  | linux
  | apple
  deriving DecidableEq, Repr

/-- The answer of the channel to one bulk write. On `linux`, `ret` is the return
value of `usb_bulk_write` (the number of bytes written, or a negative error)
and `transfered` is not used; on `apple`, `ret` is the return code of
`libusb_bulk_transfer` and `transfered` the value it leaves in `transfered`. -/
structure Reply where
  ret : Int
  transfered : Int
  deriving DecidableEq, Repr

/-- The number of bytes the channel accepted. -/
def accepted : Platform → Reply → Int
  | .linux, r => r.ret
  | .apple, r => r.transfered

/-- A channel answers the bulk write number `k` (from 0), of `size` bytes taken
at `offset` of the buffer. -/
abbrev Channel := Nat → Nat → Nat → Reply

/-- The test that sends the loop to `error`: `usb_bulk_write(...) != to_write`
on `linux`, `libusb_bulk_transfer(...) && (transfered != to_write)` on
`apple`. -/
def write_failed : Platform → Reply → Nat → Bool
  | .linux, r, to_write => toU32 r.ret != to_write
  | .apple, r, to_write => r.ret != 0 && toU32 r.transfered != to_write

/-- One bulk write: `to_write` bytes from `buffer + offset`. -/
structure Write where
  offset : Nat
  size : Nat
  deriving DecidableEq, Repr

/-- One progress line: the percentage and the byte count printed. -/
structure Progress where
  percent : Nat
  bytes : Nat
  deriving DecidableEq, Repr

/-- The state of the loop: `remain`, the bulk writes issued so far and the
progress lines printed so far, both in order. -/
structure Session where
  remain : Nat
  writes : List Write
  shown : List Progress
  deriving DecidableEq, Repr

/-- How a run of the loop stands: left through `while (remain)` with
`remain == 0`, left through `goto error`, or still iterating. -/
inductive Outcome where
  | complete (s : Session)
  | failed (s : Session)
  | running (s : Session)
  deriving DecidableEq, Repr

/-- The percentage printed: `(length - remain) * 100 / length` on
`unsigned int`. -/
def percent (length remain : Nat) : Nat :=
  mul32 (sub32 length remain) 100 / length

/-- The loop `while (remain) { ... }` of `main`, run for at most `fuel`
iterations. -/
def transfer_loop (p : Platform) (ch : Channel) (block_size : Int) (quiet : Bool)
    (length : Nat) : Nat → Session → Outcome
  | 0, s => .running s
  | fuel + 1, s =>
    if s.remain = 0 then .complete s
    else
      let to_write :=
        if s.remain > toU32 block_size then toU32 block_size else s.remain
      let offset := sub32 length s.remain
      let writes := s.writes ++ [⟨offset, to_write⟩]
      if write_failed p (ch s.writes.length offset to_write) to_write then
        .failed { s with writes := writes }
      else
        let remain := sub32 s.remain to_write
        let shown :=
          if quiet then s.shown
          else s.shown ++ [⟨percent length remain, sub32 length remain⟩]
        transfer_loop p ch block_size quiet length fuel ⟨remain, writes, shown⟩

/-- The transfer of `main`: `remain = length;` and then the loop. -/
def transfer (p : Platform) (ch : Channel) (block_size : Int) (quiet : Bool)
    (length : Nat) (fuel : Nat) : Outcome :=
  transfer_loop p ch block_size quiet length fuel ⟨length, [], []⟩

/-- The bytes a bulk write hands to the channel. -/
def Write.bytes (buffer : List Nat) (w : Write) : List Nat :=
  (buffer.drop w.offset).take w.size

/-- A channel that accepts every write in full and reports no error. -/
def fullChannel : Channel := fun _ _ size => ⟨size, size⟩

/-- The channel accepts every write in full. -/
def accepts_in_full (p : Platform) (ch : Channel) : Prop :=
  ∀ k offset size, accepted p (ch k offset size) = (size : Int)

/-! ## Encodings and invariants -/

/-- The bytes of a little-endian 16-bit value. -/
def le16 (v : Nat) : List Nat := [v % 256, v / 256 % 256]

/-- The bytes of a little-endian 32-bit value. -/
def le32 (v : Nat) : List Nat :=
  [v % 256, v / 256 % 256, v / 65536 % 256, v / 16777216 % 256]

/-- The writes in `ws` follow one another from offset `off` on: each begins where
the one before it ended. -/
def chained : Nat → List Write → Prop
  | _, [] => True
  | off, w :: ws => w.offset = off ∧ chained (off + w.size) ws

/-- What holds of the session at every turn of the loop over a buffer `buf` of
`T` bytes: the writes follow one another from offset 0, their sizes and `remain`
add up to `T`, the bytes handed over are the first `T - remain` bytes of `buf`,
and no write leaves the buffer. -/
def Inv (T : Nat) (buf : List Nat) (s : Session) : Prop :=
  chained 0 s.writes
    ∧ (s.writes.map Write.size).sum + s.remain = T
    ∧ (s.writes.map (Write.bytes buf)).flatten = buf.take (T - s.remain)
    ∧ ∀ w ∈ s.writes, w.offset + w.size ≤ T

/-- A channel that accepts 2 bytes of the first write, reporting no error, and
every later write in full. -/
def shortChannel : Channel := fun k _ size => if k = 0 then ⟨0, 2⟩ else ⟨0, size⟩

/-! ## Lemmas on memory -/

theorem set_mid (pre : List Nat) (x v : Nat) (post : List Nat) :
    (pre ++ x :: post).set pre.length v = pre ++ v :: post := by
  induction pre with
  | nil => rfl
  | cons a pre ih => simp [List.set, ih]

theorem getD_mid (pre : List Nat) (x : Nat) (post : List Nat) :
    (pre ++ x :: post).getD pre.length 0 = x := by
  induction pre with
  | nil => rfl
  | cons a pre ih =>
    show (pre ++ x :: post).getD pre.length 0 = x
    exact ih

theorem copy_in_mid (data : List Nat) :
    ∀ (pre mid post : List Nat), mid.length = data.length →
      copy_in (pre ++ mid ++ post) pre.length data = pre ++ data ++ post := by
  induction data with
  | nil =>
    intro pre mid post h
    have : mid = [] := List.length_eq_zero.mp h
    subst this
    rfl
  | cons b bs ih =>
    intro pre mid post h
    cases mid with
    | nil => simp at h
    | cons m ms =>
      have h1 : ms.length = bs.length := by simpa using h
      have hset : (pre ++ (m :: ms) ++ post).set pre.length b
          = (pre ++ [b]) ++ ms ++ post := by
        simp [List.append_assoc]
      have hlen : pre.length + 1 = (pre ++ [b]).length := by simp
      show copy_in ((pre ++ (m :: ms) ++ post).set pre.length b) (pre.length + 1) bs
        = pre ++ (b :: bs) ++ post
      rw [hset, hlen, ih (pre ++ [b]) ms post h1]
      simp [List.append_assoc]

theorem checksum_loop_mid (data : List Nat) :
    ∀ (pre post : List Nat) (c : Nat), c < 65536 →
      checksum_loop (pre ++ data ++ post) data.length pre.length c
        = (c + data.sum) % 65536 := by
  induction data with
  | nil =>
    intro pre post c hc
    simp [checksum_loop, Nat.mod_eq_of_lt hc]
  | cons d ds ih =>
    intro pre post c hc
    have hget : (pre ++ (d :: ds) ++ post).getD pre.length 0 = d := by
      have := getD_mid pre d (ds ++ post)
      simpa [List.append_assoc] using this
    have hshape : pre ++ (d :: ds) ++ post = (pre ++ [d]) ++ ds ++ post := by
      simp [List.append_assoc]
    have hlen : pre.length + 1 = (pre ++ [d]).length := by simp
    show checksum_loop (pre ++ (d :: ds) ++ post) ds.length (pre.length + 1)
        ((c + (pre ++ (d :: ds) ++ post).getD pre.length 0) % 65536)
      = (c + (d :: ds).sum) % 65536
    rw [hget, hshape, hlen, ih (pre ++ [d]) post _ (Nat.mod_lt _ (by norm_num))]
    simp [List.sum_cons, Nat.add_assoc]

/-- A block of `n + 10` bytes is 8 bytes, then `n` bytes, then 2 bytes. -/
theorem block_shape (n : Nat) (buf : List Nat) (h : buf.length = n + 10) :
    ∃ a0 a1 a2 a3 a4 a5 a6 a7 mid z0 z1,
      buf = [a0, a1, a2, a3, a4, a5, a6, a7] ++ mid ++ [z0, z1]
        ∧ mid.length = n := by
  match buf, h with
  | a0 :: a1 :: a2 :: a3 :: a4 :: a5 :: a6 :: a7 :: rest, h =>
    have hr : rest.length = n + 2 := by simpa using h
    refine ⟨a0, a1, a2, a3, a4, a5, a6, a7, rest.take n, rest.getD n 0,
      rest.getD (n + 1) 0, ?_, ?_⟩
    · have h2 : rest.drop n = [rest.getD n 0, rest.getD (n + 1) 0] := by
        apply List.ext_getElem
        · simp [hr]
        · intro i h1 h2
          simp at h2
          have hi : i = 0 ∨ i = 1 := by omega
          rcases hi with rfl | rfl
          · simp [List.getD_eq_getElem?_getD, List.getElem?_eq_getElem, hr]
          · simp [List.getD_eq_getElem?_getD, List.getElem?_eq_getElem, hr]
      have h3 := List.take_append_drop n rest
      rw [h2] at h3
      show a0 :: a1 :: a2 :: a3 :: a4 :: a5 :: a6 :: a7 :: rest
        = a0 :: a1 :: a2 :: a3 :: a4 :: a5 :: a6 :: a7
            :: (rest.take n ++ [rest.getD n 0, rest.getD (n + 1) 0])
      rw [h3]
    · simp [hr]

/-- The block built from a fresh block `buf` of `content.length + 10` bytes. -/
theorem build_shape (content buf : List Nat) (address : Nat)
    (h : buf.length = content.length + 10) :
    store16
      (store32 (store32 (copy_in buf 8 content) 0 address) 4
        ((content.length + 10) % 4294967296))
      (content.length + 8) (checksum_loop (copy_in buf 8 content) content.length 8 0)
    = le32 address ++ le32 ((content.length + 10) % 4294967296) ++ content
        ++ le16 (content.sum % 65536) := by
  obtain ⟨a0, a1, a2, a3, a4, a5, a6, a7, mid, z0, z1, rfl, hmid⟩ :=
    block_shape content.length buf h
  have hcopy := copy_in_mid content [a0, a1, a2, a3, a4, a5, a6, a7] mid [z0, z1] hmid
  have hsum := checksum_loop_mid content [a0, a1, a2, a3, a4, a5, a6, a7] [z0, z1] 0
    (by norm_num)
  simp only [List.length_cons, List.length_nil, Nat.zero_add, Nat.reduceAdd] at hcopy hsum
  rw [hcopy, hsum]
  have hfoot : ∀ (pre : List Nat) (c : Nat), pre.length = content.length + 8 →
      store16 (pre ++ [z0, z1]) (content.length + 8) c = pre ++ le16 c := by
    intro pre c hp
    unfold store16 store8 le16
    rw [← hp]
    have e1 := set_mid pre z0 (c % 256) [z1]
    rw [e1]
    have e2 := set_mid (pre ++ [c % 256]) z1 (c / 256 % 256) []
    simp only [List.length_append, List.length_cons, List.length_nil, Nat.zero_add,
      List.append_assoc, List.singleton_append] at e2
    rw [e2]
  have hhead : store32 (store32 ([a0, a1, a2, a3, a4, a5, a6, a7] ++ content ++ [z0, z1])
        0 address) 4 ((content.length + 10) % 4294967296)
      = (le32 address ++ le32 ((content.length + 10) % 4294967296) ++ content)
          ++ [z0, z1] := by
    simp [store32, store8, le32, List.set]
  rw [hhead, hfoot _ _ (by simp [le32])]

/-- The result of `read_file` when every call succeeds. -/
theorem read_file_readable (env : FileEnv) (address length0 : Nat) (h : env.readable) :
    read_file env address length0 =
      { ret := some (le32 address ++ le32 ((env.st_size + 10) % 4294967296)
          ++ env.content ++ le16 (env.content.sum % 65536)),
        length := (env.st_size + 10) % 4294967296,
        trace := [.opened, .malloc (env.st_size + 10)] } := by
  obtain ⟨h1, h2, h3, h4⟩ := h
  have hb := build_shape env.content ((List.range (env.st_size + 10)).map env.junk)
    address (by simp [FileEnv.st_size])
  unfold read_file
  simp only [h1, h2, h3, h4, if_false, Bool.not_true, ne_eq, not_true_eq_false]
  simp only [FileEnv.st_size] at hb ⊢
  rw [hb]
  simp

theorem load16_end (pre : List Nat) (c : Nat) (hc : c < 65536) :
    load16 (pre ++ le16 c) pre.length = c := by
  have h0 := getD_mid pre (c % 256) [c / 256 % 256]
  have h1 := getD_mid (pre ++ [c % 256]) (c / 256 % 256) []
  simp only [List.length_append, List.length_cons, List.length_nil, Nat.zero_add,
    List.append_assoc, List.singleton_append] at h1
  unfold load16 le16
  rw [h0, h1]
  omega

theorem load32_le32 (v : Nat) (hv : v < 4294967296) (a b post : List Nat)
    (ha : a = le32 v) : load32 (a ++ post) 0 = v ∧ load32 (b ++ a ++ post) b.length = v := by
  subst ha
  constructor
  · simp [load32, le32, List.getD]
    omega
  · have h0 := getD_mid b (v % 256) ([v / 256 % 256, v / 65536 % 256,
      v / 16777216 % 256] ++ post)
    have h1 := getD_mid (b ++ [v % 256]) (v / 256 % 256) ([v / 65536 % 256,
      v / 16777216 % 256] ++ post)
    have h2 := getD_mid (b ++ [v % 256, v / 256 % 256]) (v / 65536 % 256)
      ([v / 16777216 % 256] ++ post)
    have h3 := getD_mid (b ++ [v % 256, v / 256 % 256, v / 65536 % 256])
      (v / 16777216 % 256) post
    simp only [List.length_append, List.length_cons, List.length_nil, Nat.zero_add,
      List.append_assoc, List.singleton_append, List.cons_append, List.nil_append,
      Nat.reduceAdd] at h0 h1 h2 h3
    simp only [load32, le32, List.append_assoc, List.cons_append, List.nil_append]
    rw [h0, h1, h2, h3]
    omega

/-! ## The wire image -/

/-- C1: when every call of `read_file` succeeds, the 16-bit little-endian value
at offset `8 + L` of the image is the sum of the payload bytes modulo 65536, and
that sum runs over the bytes `[8, 8 + L)` of the image only. -/
theorem checksum_is_payload_sum (env : FileEnv) (address length0 : Nat)
    (h : env.readable) :
    ∃ img, (read_file env address length0).ret = some img
      ∧ load16 img (8 + env.content.length) = env.content.sum % 65536
      ∧ load16 img (8 + env.content.length)
          = ((img.drop 8).take env.content.length).sum % 65536 := by
  rw [read_file_readable env address length0 h]
  have hlen : (le32 address ++ le32 ((env.st_size + 10) % 4294967296)
      ++ env.content).length = 8 + env.content.length := by
    simp [le32]
    omega
  have hload := load16_end (le32 address ++ le32 ((env.st_size + 10) % 4294967296)
    ++ env.content) (env.content.sum % 65536) (Nat.mod_lt _ (by norm_num))
  rw [hlen] at hload
  have hd : ((le32 address ++ le32 ((env.st_size + 10) % 4294967296)
      ++ env.content ++ le16 (env.content.sum % 65536)).drop 8).take
        env.content.length = env.content := by
    simp [le32]
  refine ⟨_, rfl, hload, ?_⟩
  rw [hd]
  exact hload

/-- The payload `[1, 2, 3]` has checksum `0x0006`, and a payload of 257 bytes
`0xFF` and one byte `0x01`, whose bytes add up to 65536, has checksum `0x0000`. -/
theorem checksum_is_payload_sum_witness :
    ((fileOf [1, 2, 3] (fun _ => 0)).readable
      ∧ ∃ img, (read_file (fileOf [1, 2, 3] (fun _ => 0)) 3221258240 0).ret = some img
        ∧ load16 img (8 + 3) = 6)
    ∧ ((fileOf (List.replicate 257 255 ++ [1]) (fun _ => 0)).readable
      ∧ (List.replicate 257 255 ++ [1]).sum = 65536
      ∧ ∃ img, (read_file (fileOf (List.replicate 257 255 ++ [1]) (fun _ => 0))
            3221258240 0).ret = some img
        ∧ load16 img (8 + 258) = 0) := by
  have hread : (fileOf (List.replicate 257 255 ++ [1]) (fun _ => 0)).readable :=
    ⟨by decide, by decide, rfl, rfl⟩
  have hsum : (List.replicate 257 255 ++ [1]).sum = 65536 := by
    rw [List.sum_append, List.sum_replicate]
    rfl
  refine ⟨⟨by decide, ?_⟩, ⟨hread, hsum, ?_⟩⟩
  · obtain ⟨img, h1, h2, -⟩ :=
      checksum_is_payload_sum (fileOf [1, 2, 3] (fun _ => 0)) 3221258240 0 (by decide)
    exact ⟨img, h1, h2⟩
  · obtain ⟨img, h1, h2, -⟩ :=
      checksum_is_payload_sum (fileOf (List.replicate 257 255 ++ [1]) (fun _ => 0))
        3221258240 0 hread
    have hl : (fileOf (List.replicate 257 255 ++ [1]) (fun _ => 0)).content.length
        = 258 := by
      show (List.replicate 257 255 ++ [1]).length = 258
      rw [List.length_append, List.length_replicate]
      rfl
    have hc : (fileOf (List.replicate 257 255 ++ [1]) (fun _ => 0)).content.sum
        = 65536 := hsum
    rw [hl, hc] at h2
    exact ⟨img, h1, h2⟩

/-- C2: when every call of `read_file` succeeds, for a 32-bit load address and
a file whose framed size `L + 10` fits the 32-bit length field, bytes `[0, 4)` of
the image decode little-endian to the load address and bytes `[4, 8)` to
`L + 10`. -/
theorem header_decodes (env : FileEnv) (address length0 : Nat) (h : env.readable)
    (ha : address < 4294967296) (hl : env.content.length + 10 < 4294967296) :
    ∃ img, (read_file env address length0).ret = some img
      ∧ load32 img 0 = address
      ∧ load32 img 4 = env.content.length + 10 := by
  rw [read_file_readable env address length0 h]
  refine ⟨_, rfl, ?_, ?_⟩
  · have := (load32_le32 address ha (le32 address) []
      (le32 ((env.st_size + 10) % 4294967296) ++ env.content
        ++ le16 (env.content.sum % 65536)) rfl).1
    simpa [List.append_assoc] using this
  · have hv : (env.st_size + 10) % 4294967296 = env.content.length + 10 :=
      Nat.mod_eq_of_lt hl
    have := (load32_le32 (env.content.length + 10) hl
      (le32 (env.content.length + 10)) (le32 address)
      (env.content ++ le16 (env.content.sum % 65536)) rfl).2
    rw [hv]
    have h4 : (le32 address).length = 4 := rfl
    rw [h4] at this
    simpa [List.append_assoc] using this

/-- The default load address and a three-byte payload. -/
theorem header_decodes_witness :
    (fileOf [1, 2, 3] (fun _ => 0)).readable ∧ (3221258240 : Nat) < 4294967296
      ∧ (fileOf [1, 2, 3] (fun _ => 0)).content.length + 10 < 4294967296
      ∧ ∃ img, (read_file (fileOf [1, 2, 3] (fun _ => 0)) 3221258240 0).ret = some img
        ∧ load32 img 0 = 3221258240
        ∧ load32 img 4 = (fileOf [1, 2, 3] (fun _ => 0)).content.length + 10 :=
  ⟨by decide, by decide, by decide,
    header_decodes (fileOf [1, 2, 3] (fun _ => 0)) 3221258240 0 (by decide) (by decide)
      (by decide)⟩

/-- C3: when every call of `read_file` succeeds on a file of `L` bytes whose
framed size fits an `unsigned int`, the block returned holds `L + 10` bytes and
the length reported is `L + 10`. -/
theorem image_length (env : FileEnv) (address length0 : Nat) (h : env.readable)
    (hl : env.content.length + 10 < 4294967296) :
    ∃ img, (read_file env address length0).ret = some img
      ∧ (read_file env address length0).length = env.content.length + 10
      ∧ img.length = env.content.length + 10 := by
  rw [read_file_readable env address length0 h]
  refine ⟨_, rfl, ?_, ?_⟩
  · exact Nat.mod_eq_of_lt hl
  · simp [le32, le16]

/-- An empty file is accepted and gives a 10-byte image. -/
theorem image_length_witness :
    (fileOf [] (fun _ => 0)).readable
      ∧ (fileOf [] (fun _ => 0)).content.length + 10 < 4294967296
      ∧ ∃ img, (read_file (fileOf [] (fun _ => 0)) 3221258240 0).ret = some img
        ∧ (read_file (fileOf [] (fun _ => 0)) 3221258240 0).length
            = (fileOf [] (fun _ => 0)).content.length + 10
        ∧ img.length = (fileOf [] (fun _ => 0)).content.length + 10 :=
  ⟨by decide, by decide,
    image_length (fileOf [] (fun _ => 0)) 3221258240 0 (by decide) (by decide)⟩

/-- C4: when every call of `read_file` succeeds, bytes `[8, 8 + L)` of the
image are the bytes of the file, in order, whatever the fresh block held and
whatever the header and the footer are. -/
theorem payload_unmodified (env : FileEnv) (address length0 : Nat)
    (h : env.readable) :
    ∃ img, (read_file env address length0).ret = some img
      ∧ (img.drop 8).take env.content.length = env.content
      ∧ ∀ i, i < env.content.length → img.getD (8 + i) 0 = env.content.getD i 0 := by
  rw [read_file_readable env address length0 h]
  have hd : ((le32 address ++ le32 ((env.st_size + 10) % 4294967296)
      ++ env.content ++ le16 (env.content.sum % 65536)).drop 8).take
        env.content.length = env.content := by
    simp [le32]
  refine ⟨_, rfl, hd, ?_⟩
  intro i hi
  simp only [le32, List.cons_append, List.nil_append, List.append_assoc]
  rw [List.getD_eq_getElem?_getD, List.getD_eq_getElem?_getD]
  have e : 8 + i = i + 1 + 1 + 1 + 1 + 1 + 1 + 1 + 1 := by omega
  rw [e]
  simp only [List.getElem?_cons_succ]
  rw [List.getElem?_append_left hi]

/-- A three-byte file in a block that held `0xAA` bytes. -/
theorem payload_unmodified_witness :
    (fileOf [1, 2, 3] (fun _ => 170)).readable
      ∧ ∃ img, (read_file (fileOf [1, 2, 3] (fun _ => 170)) 3221258240 0).ret = some img
        ∧ (img.drop 8).take (fileOf [1, 2, 3] (fun _ => 170)).content.length
            = (fileOf [1, 2, 3] (fun _ => 170)).content
        ∧ ∀ i, i < (fileOf [1, 2, 3] (fun _ => 170)).content.length →
            img.getD (8 + i) 0 = (fileOf [1, 2, 3] (fun _ => 170)).content.getD i 0 :=
  ⟨by decide, payload_unmodified (fileOf [1, 2, 3] (fun _ => 170)) 3221258240 0
    (by decide)⟩

/-- C9: `read` never delivering more than it is asked for, `read_file` returns
`NULL` exactly when `open` fails, `fstat` fails, `malloc` fails or `read`
delivers fewer than `L` bytes; whenever it returns `NULL` the caller's `*length`
is unchanged and a block that was obtained has been freed; and when `open`
fails no block is obtained. -/
theorem read_file_failure (env : FileEnv) (address length0 : Nat)
    (hr : env.read_ret ≤ (env.st_size : Int)) :
    ((read_file env address length0).ret = none ↔
        (env.open_ret = -1 ∨ env.fstat_ret = -1 ∨ env.malloc_ok = false
          ∨ env.read_ret < (env.st_size : Int)))
      ∧ ((read_file env address length0).ret = none →
          (read_file env address length0).length = length0
            ∧ ∀ n, Event.malloc n ∈ (read_file env address length0).trace →
                Event.free ∈ (read_file env address length0).trace)
      ∧ (env.open_ret = -1 →
          ∀ n, Event.malloc n ∉ (read_file env address length0).trace) := by
  unfold read_file
  by_cases h1 : env.open_ret = -1
  · simp [h1]
  · by_cases h2 : env.fstat_ret = -1
    · simp [h1, h2]
    · by_cases h3 : env.malloc_ok = false
      · simp [h1, h2, h3]
      · have h3t : env.malloc_ok = true := by simpa using h3
        by_cases h4 : env.read_ret = (env.st_size : Int)
        · simp [h1, h2, h3t, h4]
        · have h4lt : env.read_ret < (env.st_size : Int) := lt_of_le_of_ne hr h4
          simp [h1, h2, h3t, h4, h4lt]

/-- A `read` that delivers one byte of a three-byte file. -/
theorem read_file_failure_witness :
    shortRead.read_ret ≤ (shortRead.st_size : Int)
      ∧ (read_file shortRead 3221258240 7).ret = none
      ∧ (read_file shortRead 3221258240 7).length = 7 :=
  have h := read_file_failure shortRead 3221258240 7 (by decide)
  have hnone := h.1.2 (Or.inr (Or.inr (Or.inr (by decide))))
  ⟨by decide, hnone, (h.2.1 hnone).1⟩

/-! ## Lemmas on the transfer loop -/

theorem toU32_natCast (n : Nat) (h : n < 4294967296) : toU32 (n : Int) = n := by
  unfold toU32
  omega

theorem sub32_of_le (a b : Nat) (hb : b ≤ a) (ha : a < 4294967296) :
    sub32 a b = a - b := by
  unfold sub32
  omega

theorem ceil_step (S r : Nat) (hS : 1 ≤ S) (hr : S < r) :
    (r + S - 1) / S = (r - S + S - 1) / S + 1 := by
  have : r + S - 1 = (r - S + S - 1) + S := by omega
  rw [this, Nat.add_div_right _ (by omega : 0 < S)]

theorem ceil_small (S r : Nat) (hr0 : 0 < r) (hr : r ≤ S) : (r + S - 1) / S = 1 := by
  have : r + S - 1 = (r - 1) + S := by omega
  rw [this, Nat.add_div_right _ (by omega : 0 < S), Nat.div_eq_of_lt (by omega)]

/-- A write the channel accepts in full does not send the loop to `error`. -/
theorem full_not_failed (p : Platform) (ch : Channel) (hch : accepts_in_full p ch)
    (k offset size : Nat) (hs : size < 4294967296) :
    write_failed p (ch k offset size) size = false := by
  have h := hch k offset size
  cases p with
  | linux =>
    simp only [accepted] at h
    simp [write_failed, h, toU32_natCast size hs]
  | apple =>
    simp only [accepted] at h
    simp [write_failed, h, toU32_natCast size hs]

/-- One iteration of the loop when the write does not fail. -/
theorem loop_step (p : Platform) (ch : Channel) (block_size : Int) (quiet : Bool)
    (length fuel : Nat) (s : Session) (hr : s.remain ≠ 0)
    (hw : write_failed p (ch s.writes.length (sub32 length s.remain)
      (if s.remain > toU32 block_size then toU32 block_size else s.remain))
      (if s.remain > toU32 block_size then toU32 block_size else s.remain) = false) :
    transfer_loop p ch block_size quiet length (fuel + 1) s
      = transfer_loop p ch block_size quiet length fuel
          ⟨sub32 s.remain (if s.remain > toU32 block_size then toU32 block_size
              else s.remain),
            s.writes ++ [⟨sub32 length s.remain,
              if s.remain > toU32 block_size then toU32 block_size else s.remain⟩],
            if quiet then s.shown
            else s.shown ++ [⟨percent length (sub32 s.remain
                (if s.remain > toU32 block_size then toU32 block_size else s.remain)),
              sub32 length (sub32 s.remain
                (if s.remain > toU32 block_size then toU32 block_size
                  else s.remain))⟩]⟩ := by
  conv_lhs => unfold transfer_loop
  simp only [hr, if_false, hw]
  rfl

/-- The run of the loop from `remain = r` on a channel that accepts every write
in full, for a block size `S ≥ 1`. -/
theorem loop_full (p : Platform) (ch : Channel) (S : Nat) (quiet : Bool) (T : Nat)
    (hS1 : 1 ≤ S) (hS : S < 2147483648) (hT : T < 4294967296)
    (hch : accepts_in_full p ch) :
    ∀ (fuel r : Nat) (ws : List Write) (sh : List Progress), r ≤ T →
      (r + S - 1) / S < fuel →
      ∃ sh', transfer_loop p ch (S : Int) quiet T fuel ⟨r, ws, sh⟩
        = .complete ⟨0, ws ++ (List.range ((r + S - 1) / S)).map
            (fun k => ⟨T - r + k * S, min S (r - k * S)⟩), sh'⟩ := by
  have hSu : toU32 (S : Int) = S := toU32_natCast S (by omega)
  intro fuel
  induction fuel with
  | zero => intro r ws sh _ hf; exact absurd hf (Nat.not_lt_zero _)
  | succ fuel ih =>
    intro r ws sh hr hf
    by_cases h0 : r = 0
    · subst h0
      refine ⟨sh, ?_⟩
      have hc : (S - 1) / S = 0 := Nat.div_eq_of_lt (by omega)
      simp [transfer_loop, hc]
    · have hstep := loop_step p ch (S : Int) quiet T fuel ⟨r, ws, sh⟩ h0
      simp only [hSu] at hstep
      by_cases hbig : r > S
      · simp only [hbig, if_true] at hstep
        have hw := full_not_failed p ch hch ws.length (sub32 T r) S (by omega)
        rw [hstep hw]
        have hc := ceil_step S r hS1 hbig
        have hsub : sub32 r S = r - S := sub32_of_le r S (by omega) (by omega)
        have hf' : (r - S + S - 1) / S < fuel := by rw [hc] at hf; omega
        obtain ⟨sh', hres⟩ := ih (sub32 r S) (ws ++ [⟨sub32 T r, S⟩]) _
          (by rw [hsub]; omega) (by rw [hsub]; exact hf')
        refine ⟨sh', ?_⟩
        have hmap : (List.range ((r - S + S - 1) / S)).map
            (fun k => (⟨T - (r - S) + k * S, min S (r - S - k * S)⟩ : Write))
            = ((List.range ((r - S + S - 1) / S)).map Nat.succ).map
                (fun k => (⟨T - r + k * S, min S (r - k * S)⟩ : Write)) := by
          rw [List.map_map]
          apply List.map_congr_left
          intro k _
          have hk : (k + 1) * S = k * S + S := by ring
          simp only [Function.comp, Nat.succ_eq_add_one, hk]
          congr 1 <;> omega
        rw [hres, hsub, sub32_of_le T r hr hT, hc, List.range_succ_eq_map,
          List.map_cons, ← hmap]
        simp only [Nat.zero_mul, Nat.add_zero, Nat.sub_zero, List.append_assoc,
          List.singleton_append]
        rw [Nat.min_eq_left (by omega)]
      · simp only [hbig, if_false] at hstep
        have hw := full_not_failed p ch hch ws.length (sub32 T r) r (by omega)
        rw [hstep hw]
        have hc := ceil_small S r (by omega) (by omega)
        have hz : sub32 r r = 0 := by rw [sub32_of_le r r (le_refl _) (by omega)]; omega
        rw [hz, hc]
        cases fuel with
        | zero => rw [hc] at hf; omega
        | succ fuel =>
          refine ⟨if quiet then sh
            else sh ++ [⟨percent T 0, sub32 T 0⟩], ?_⟩
          simp only [transfer_loop, if_true]
          rw [sub32_of_le T r hr hT]
          have hr1 : List.range 1 = [0] := rfl
          simp only [hr1, List.map_cons, List.map_nil, Nat.zero_mul,
            Nat.add_zero, Nat.sub_zero]
          rw [Nat.min_eq_right (by omega)]

theorem chained_append (ws : List Write) (w : Write) :
    ∀ off, chained off (ws ++ [w]) ↔
      (chained off ws ∧ w.offset = off + (ws.map Write.size).sum) := by
  induction ws with
  | nil => intro off; simp [chained]
  | cons a ws ih =>
    intro off
    show (a.offset = off ∧ chained (off + a.size) (ws ++ [w])) ↔
      ((a.offset = off ∧ chained (off + a.size) ws)
        ∧ w.offset = off + ((a :: ws).map Write.size).sum)
    rw [ih]
    simp only [List.map_cons, List.sum_cons]
    constructor
    · rintro ⟨h1, h2, h3⟩
      exact ⟨⟨h1, h2⟩, by omega⟩
    · rintro ⟨⟨h1, h2⟩, h3⟩
      exact ⟨h1, h2, by omega⟩

/-- The invariant survives one write of `w ≤ remain` bytes at `length - remain`. -/
theorem inv_step (T : Nat) (buf : List Nat) (s : Session) (w : Nat) (hT : T < 4294967296)
    (hw : w ≤ s.remain) (h : Inv T buf s) (sh : List Progress) :
    Inv T buf ⟨sub32 s.remain w, s.writes ++ [⟨sub32 T s.remain, w⟩], sh⟩ := by
  obtain ⟨h1, h2, h3, h4⟩ := h
  have hrT : s.remain ≤ T := by omega
  have e1 : sub32 T s.remain = T - s.remain := sub32_of_le _ _ hrT hT
  have e2 : sub32 s.remain w = s.remain - w := sub32_of_le _ _ hw (by omega)
  rw [e1, e2]
  refine ⟨?_, ?_, ?_, ?_⟩
  · rw [chained_append]
    exact ⟨h1, by simp only []; omega⟩
  · simp only [List.map_append, List.sum_append, List.map_cons, List.map_nil,
      List.sum_cons, List.sum_nil]
    omega
  · simp only [List.map_append, List.flatten_append, h3, List.map_cons, List.map_nil,
      List.flatten_cons, List.flatten_nil, List.append_nil, Write.bytes]
    have e3 : T - (s.remain - w) = (T - s.remain) + w := by omega
    rw [e3, List.take_add]
  · intro x hx
    rcases List.mem_append.mp hx with hx | hx
    · exact h4 x hx
    · have : x = ⟨T - s.remain, w⟩ := by simpa using hx
      subst this
      simp only []
      omega

/-- The size of a write never exceeds `remain`. -/
theorem to_write_le (r b : Nat) : (if r > b then b else r) ≤ r := by
  split <;> omega

/-- The invariant holds when the loop is left with `remain == 0`. -/
theorem loop_inv (p : Platform) (ch : Channel) (block_size : Int) (quiet : Bool)
    (T : Nat) (buf : List Nat) (hT : T < 4294967296) :
    ∀ (fuel : Nat) (s s' : Session), Inv T buf s →
      transfer_loop p ch block_size quiet T fuel s = .complete s' →
      Inv T buf s' ∧ s'.remain = 0 := by
  intro fuel
  induction fuel with
  | zero => intro s s' _ h; simp [transfer_loop] at h
  | succ fuel ih =>
    intro s s' hinv h
    by_cases h0 : s.remain = 0
    · simp only [transfer_loop, h0, if_true, Outcome.complete.injEq] at h
      subst h
      exact ⟨hinv, h0⟩
    · by_cases hf : write_failed p (ch s.writes.length (sub32 T s.remain)
          (if s.remain > toU32 block_size then toU32 block_size else s.remain))
          (if s.remain > toU32 block_size then toU32 block_size else s.remain) = true
      · conv at h => lhs; unfold transfer_loop
        simp [h0, hf] at h
      · have hf' := Bool.eq_false_iff.mpr hf
        rw [loop_step p ch block_size quiet T fuel s h0 hf'] at h
        exact ih _ s' (inv_step T buf s _ hT (to_write_le _ _) hinv _) h

/-- The invariant holds when the transfer starts. -/
theorem inv_start (T : Nat) (buf : List Nat) : Inv T buf ⟨T, [], []⟩ := by
  simp [Inv, chained]

/-! ## The chunked transfer -/

/-- C5: for an image of `T` bytes and a block size `S ≥ 1`, on a channel that
accepts every write in full, the loop is left with `remain == 0` after exactly
`ceil(T / S)` writes; write number `k` (from 0) begins at offset `k * S`, the
bytes already sent, and has size `min(S, T - k * S)`, the bytes remaining; and
the last write has size `T - S * floor((T - 1) / S)`. -/
theorem chunking (p : Platform) (ch : Channel) (S : Nat) (quiet : Bool) (T fuel : Nat)
    (hS1 : 1 ≤ S) (hS : S < 2147483648) (hT : T < 4294967296)
    (hch : accepts_in_full p ch) (hfuel : (T + S - 1) / S < fuel) :
    ∃ s, transfer p ch (S : Int) quiet T fuel = .complete s
      ∧ s.remain = 0
      ∧ s.writes.length = (T + S - 1) / S
      ∧ chained 0 s.writes
      ∧ (∀ k, k < (T + S - 1) / S →
          s.writes[k]? = some ⟨k * S, min S (T - k * S)⟩)
      ∧ (0 < T →
          s.writes.getLast? = some ⟨S * ((T - 1) / S), T - S * ((T - 1) / S)⟩) := by
  obtain ⟨sh', hrun⟩ := loop_full p ch S quiet T hS1 hS hT hch fuel T [] []
    (le_refl _) hfuel
  have hinv := loop_inv p ch (S : Int) quiet T [] hT fuel _ _ (inv_start T []) hrun
  refine ⟨_, hrun, rfl, ?_, hinv.1.1, ?_, ?_⟩
  · simp
  · intro k hk
    simp [List.getElem?_map, List.getElem?_range, hk]
  · intro hT0
    have hc : (T + S - 1) / S = (T - 1) / S + 1 := by
      have : T + S - 1 = (T - 1) + S := by omega
      rw [this, Nat.add_div_right _ (by omega : 0 < S)]
    have hdm := Nat.div_add_mod (T - 1) S
    have hml := Nat.mod_lt (T - 1) (by omega : S > 0)
    simp only [List.nil_append, List.getLast?_map, List.getLast?_range, hc,
      Nat.add_sub_cancel, Nat.sub_self, Nat.zero_add]
    simp only [Nat.succ_ne_zero, if_false, Option.map_some', Option.some.injEq,
      Write.mk.injEq]
    constructor
    · exact Nat.mul_comm _ _
    · rw [Nat.mul_comm ((T - 1) / S) S]
      omega

/-- Ten bytes in blocks of four: three writes, the last of two bytes. -/
theorem chunking_witness :
    1 ≤ 4 ∧ 4 < 2147483648 ∧ 10 < 4294967296 ∧ accepts_in_full .linux fullChannel
      ∧ (10 + 4 - 1) / 4 < 5
      ∧ ∃ s, transfer .linux fullChannel ((4 : Nat) : Int) false 10 5 = .complete s
        ∧ s.remain = 0
        ∧ s.writes.length = (10 + 4 - 1) / 4
        ∧ chained 0 s.writes
        ∧ (∀ k, k < (10 + 4 - 1) / 4 →
            s.writes[k]? = some ⟨k * 4, min 4 (10 - k * 4)⟩)
        ∧ (0 < 10 →
            s.writes.getLast? = some ⟨4 * ((10 - 1) / 4), 10 - 4 * ((10 - 1) / 4)⟩) :=
  ⟨by decide, by decide, by decide, fun _ _ _ => rfl, by decide,
    chunking .linux fullChannel 4 false 10 5 (by decide) (by decide) (by decide)
      (fun _ _ _ => rfl) (by decide)⟩

/-- C8: when the loop is left with `remain == 0`, whatever the block size and
the channel, the writes issued follow one another from offset 0, each beginning
at the number of bytes already sent; the bytes they hand over, put end to end,
are the whole image; their sizes add up to its length; and no write reads
outside the buffer. -/
theorem writes_cover_image (p : Platform) (ch : Channel) (block_size : Int)
    (quiet : Bool) (buf : List Nat) (fuel : Nat) (s : Session)
    (hT : buf.length < 4294967296)
    (h : transfer p ch block_size quiet buf.length fuel = .complete s) :
    chained 0 s.writes
      ∧ (s.writes.map (Write.bytes buf)).flatten = buf
      ∧ (s.writes.map Write.size).sum = buf.length
      ∧ ∀ w ∈ s.writes, w.offset + w.size ≤ buf.length := by
  obtain ⟨⟨h1, h2, h3, h4⟩, h0⟩ :=
    loop_inv p ch block_size quiet buf.length buf hT fuel _ s (inv_start _ buf) h
  refine ⟨h1, ?_, ?_, h4⟩
  · rw [h3, h0, Nat.sub_zero, List.take_length]
  · omega

/-- The image of an empty file, sent in blocks of four bytes. -/
theorem writes_cover_image_witness :
    [0, 128, 0, 192, 10, 0, 0, 0, 0, 0].length < 4294967296
      ∧ transfer .apple fullChannel 4 true [0, 128, 0, 192, 10, 0, 0, 0, 0, 0].length 4
          = .complete ⟨0, [⟨0, 4⟩, ⟨4, 4⟩, ⟨8, 2⟩], []⟩
      ∧ chained 0 [⟨0, 4⟩, ⟨4, 4⟩, ⟨8, 2⟩]
      ∧ ([(⟨0, 4⟩ : Write), ⟨4, 4⟩, ⟨8, 2⟩].map
          (Write.bytes [0, 128, 0, 192, 10, 0, 0, 0, 0, 0])).flatten
          = [0, 128, 0, 192, 10, 0, 0, 0, 0, 0] :=
  have h := writes_cover_image .apple fullChannel 4 true
    [0, 128, 0, 192, 10, 0, 0, 0, 0, 0] 4 ⟨0, [⟨0, 4⟩, ⟨4, 4⟩, ⟨8, 2⟩], []⟩
    (by decide) (by decide)
  ⟨by decide, by decide, h.1, h.2.1⟩

/-- The loop with `block_size == 0`, from any list of writes. -/
theorem loop_zero (p : Platform) (ch : Channel) (quiet : Bool) (T : Nat)
    (hT0 : T ≠ 0) (hT : T < 4294967296) (hch : accepts_in_full p ch) :
    ∀ (n : Nat) (ws : List Write) (sh : List Progress),
      ∃ sh', transfer_loop p ch 0 quiet T n ⟨T, ws, sh⟩
        = .running ⟨T, ws ++ List.replicate n ⟨0, 0⟩, sh'⟩ := by
  have hz : toU32 0 = 0 := rfl
  have hTT : sub32 T T = 0 := by rw [sub32_of_le T T (le_refl _) hT]; omega
  have hT0' : sub32 T 0 = T := by rw [sub32_of_le T 0 (Nat.zero_le _) hT]; omega
  intro n
  induction n with
  | zero => intro ws sh; exact ⟨sh, by simp [transfer_loop]⟩
  | succ n ih =>
    intro ws sh
    have hstep := loop_step p ch 0 quiet T n ⟨T, ws, sh⟩ hT0
    simp only [hz, Nat.pos_of_ne_zero hT0, gt_iff_lt, if_true, hTT, hT0'] at hstep
    rw [hstep (full_not_failed p ch hch ws.length 0 0 (by omega))]
    obtain ⟨sh', hrun⟩ := ih (ws ++ [⟨0, 0⟩]) _
    refine ⟨sh', ?_⟩
    rw [hrun, List.replicate_succ, List.append_assoc, List.singleton_append]

/-- C10: with `block_size == 0` and an image of `T ≥ 10` bytes, on a channel
that accepts every write in full, after any number `n` of iterations the loop is
still running with `remain == T`, all `n` writes having been of 0 bytes at
offset 0. -/
theorem zero_block_size_never_ends (p : Platform) (ch : Channel) (quiet : Bool)
    (T n : Nat) (hT10 : 10 ≤ T) (hT : T < 4294967296) (hch : accepts_in_full p ch) :
    ∃ sh, transfer p ch 0 quiet T n = .running ⟨T, List.replicate n ⟨0, 0⟩, sh⟩ := by
  obtain ⟨sh', hrun⟩ := loop_zero p ch quiet T (by omega) hT hch n [] []
  exact ⟨sh', by simpa [transfer] using hrun⟩

/-- The image of an empty file after three iterations. -/
theorem zero_block_size_never_ends_witness :
    10 ≤ 10 ∧ 10 < 4294967296 ∧ accepts_in_full .apple fullChannel
      ∧ ∃ sh, transfer .apple fullChannel 0 true 10 3
          = .running ⟨10, List.replicate 3 ⟨0, 0⟩, sh⟩ :=
  ⟨by decide, by decide, fun _ _ _ => rfl,
    zero_block_size_never_ends .apple fullChannel true 10 3 (by decide) (by decide)
      (fun _ _ _ => rfl)⟩

/-! ## Short writes -/

/-- C6, on the `apple` build: the channel accepts 2 of the 4 bytes of the first
write and returns 0; the loop does not fail at that write, it goes on to issue
two more writes and is left with `remain == 0`. On the `linux` build the same
answer, 0 where 4 was requested, sends the loop to `error` at the first write
with `remain` still 10. -/
theorem apple_short_write_goes_on :
    accepted .apple (shortChannel 0 0 4) = 2
      ∧ transfer .apple shortChannel 4 true 10 4
          = .complete ⟨0, [⟨0, 4⟩, ⟨4, 4⟩, ⟨8, 2⟩], []⟩
      ∧ transfer .linux shortChannel 4 true 10 4 = .failed ⟨10, [⟨0, 4⟩], []⟩ := by
  decide

/-- On the `linux` build a write of which the channel accepts another number of
bytes than requested sends the loop to `error` at once, with `remain`
unchanged: no further write is issued. -/
theorem linux_short_write_fails (ch : Channel) (S : Nat) (quiet : Bool)
    (T fuel : Nat) (s : Session) (hS1 : 1 ≤ S) (hS : S < 2147483648)
    (hr0 : s.remain ≠ 0)
    (hlo : -2147483648 ≤ (ch s.writes.length (sub32 T s.remain) (min S s.remain)).ret)
    (hhi : (ch s.writes.length (sub32 T s.remain) (min S s.remain)).ret < 2147483648)
    (hshort : accepted .linux (ch s.writes.length (sub32 T s.remain) (min S s.remain))
      ≠ ((min S s.remain : Nat) : Int)) :
    transfer_loop .linux ch (S : Int) quiet T (fuel + 1) s
      = .failed { s with writes := s.writes ++ [⟨sub32 T s.remain, min S s.remain⟩] } := by
  have hSu : toU32 (S : Int) = S := toU32_natCast S (by omega)
  have hw : (if s.remain > S then S else s.remain) = min S s.remain := by
    split <;> omega
  have hfail : write_failed .linux
      (ch s.writes.length (sub32 T s.remain) (min S s.remain)) (min S s.remain) = true := by
    simp only [accepted] at hshort
    simp only [write_failed, bne_iff_ne, ne_eq]
    unfold toU32
    omega
  conv_lhs => unfold transfer_loop
  simp only [hr0, if_false, hSu, hw, hfail, if_true]

/-- When the loop is left through `error`, the last write issued is the one
that failed, it began at `length - remain`, and that offset is the sum of the
sizes of the writes before it. -/
theorem loop_failed_inv (p : Platform) (ch : Channel) (block_size : Int) (quiet : Bool)
    (T : Nat) (buf : List Nat) (hT : T < 4294967296) :
    ∀ (fuel : Nat) (s s' : Session), Inv T buf s →
      transfer_loop p ch block_size quiet T fuel s = .failed s' →
      ∃ ws w, s'.writes = ws ++ [w] ∧ chained 0 s'.writes
        ∧ w.offset = (ws.map Write.size).sum ∧ w.offset + s'.remain = T
        ∧ write_failed p (ch ws.length w.offset w.size) w.size = true := by
  intro fuel
  induction fuel with
  | zero => intro s s' _ h; simp [transfer_loop] at h
  | succ fuel ih =>
    intro s s' hinv h
    by_cases h0 : s.remain = 0
    · simp [transfer_loop, h0] at h
    · by_cases hf : write_failed p (ch s.writes.length (sub32 T s.remain)
          (if s.remain > toU32 block_size then toU32 block_size else s.remain))
          (if s.remain > toU32 block_size then toU32 block_size else s.remain) = true
      · conv at h => lhs; unfold transfer_loop
        simp only [h0, if_false, hf, if_true, Outcome.failed.injEq] at h
        subst h
        obtain ⟨h1, h2, -, -⟩ := hinv
        have e1 : sub32 T s.remain = T - s.remain := sub32_of_le _ _ (by omega) hT
        refine ⟨s.writes, ⟨sub32 T s.remain, _⟩, rfl, ?_, ?_, ?_, hf⟩
        · show chained 0 (s.writes ++ [_])
          rw [chained_append]
          exact ⟨h1, by simp only [e1]; omega⟩
        · simp only [e1]; omega
        · simp only [e1]; omega
      · have hf' := Bool.eq_false_iff.mpr hf
        rw [loop_step p ch block_size quiet T fuel s h0 hf'] at h
        exact ih _ s' (inv_step T buf s _ hT (to_write_le _ _) hinv _) h

/-! ## Progress -/

/-- The percentage printed is the exact one as long as a hundred times the
bytes sent fit an `unsigned int`. -/
theorem percent_exact (T remain : Nat) (hr : remain ≤ T) (hT : T < 4294967296)
    (hfit : (T - remain) * 100 < 4294967296) :
    percent T remain = (T - remain) * 100 / T := by
  unfold percent mul32
  rw [sub32_of_le T remain hr hT, Nat.mod_eq_of_lt hfit]

/-- When progress is shown, the last line printed is the one of the last write:
the percentage and the byte count at the current `remain`. -/
theorem loop_last_shown (p : Platform) (ch : Channel) (block_size : Int) (T : Nat) :
    ∀ (fuel : Nat) (s s' : Session),
      (s.writes ≠ [] →
        s.shown.getLast? = some ⟨percent T s.remain, sub32 T s.remain⟩) →
      transfer_loop p ch block_size false T fuel s = .complete s' →
      (s'.writes ≠ [] →
        s'.shown.getLast? = some ⟨percent T s'.remain, sub32 T s'.remain⟩) := by
  intro fuel
  induction fuel with
  | zero => intro s s' _ h; simp [transfer_loop] at h
  | succ fuel ih =>
    intro s s' hlast h
    by_cases h0 : s.remain = 0
    · simp only [transfer_loop, h0, if_true, Outcome.complete.injEq] at h
      subst h
      exact hlast
    · by_cases hf : write_failed p (ch s.writes.length (sub32 T s.remain)
          (if s.remain > toU32 block_size then toU32 block_size else s.remain))
          (if s.remain > toU32 block_size then toU32 block_size else s.remain) = true
      · conv at h => lhs; unfold transfer_loop
        simp [h0, hf] at h
      · have hf' := Bool.eq_false_iff.mpr hf
        rw [loop_step p ch block_size false T fuel s h0 hf'] at h
        refine ih _ s' ?_ h
        intro _
        simp

/-- C7, at an image of 42949673 bytes sent with the default block size of 512
bytes on a channel that accepts every write in full: the loop is left with
`remain == 0`, all 42949673 bytes are sent, the exact percentage is 100, and
the last line printed shows 0. -/
theorem percent_wraps :
    ∃ s, transfer .apple fullChannel 512 false 42949673 83888 = .complete s
      ∧ s.remain = 0
      ∧ s.shown.getLast? = some ⟨0, 42949673⟩
      ∧ 42949673 * 100 / 42949673 = 100 := by
  obtain ⟨sh', hrun⟩ := loop_full .apple fullChannel 512 false 42949673 (by decide)
    (by decide) (by decide) (fun _ _ _ => rfl) 83888 42949673 [] [] (le_refl _)
    (by decide)
  have hlast := loop_last_shown .apple fullChannel 512 42949673 83888 _ _
    (fun h => absurd rfl h) hrun
  have hne : ([] ++ (List.range ((42949673 + 512 - 1) / 512)).map
      (fun k => (⟨42949673 - 42949673 + k * 512, min 512 (42949673 - k * 512)⟩ : Write)))
      ≠ [] := by
    intro h
    have := congrArg List.length h
    simp at this
  have hp : percent 42949673 0 = 0 := by decide
  have hb : sub32 42949673 0 = 42949673 := by decide
  refine ⟨_, hrun, rfl, ?_, by decide⟩
  have := hlast hne
  simp only [hp, hb] at this
  exact this

end Dnw
